import Mathlib

/-!
Verification of the state-resolution core of the SchildiChat/ruma repository.

The repository source available here contains the integration-test file
`crates/ruma-state-res/tests/it/resolve.rs`, which drives the library function
`ruma_state_res::resolve` and defines the auth-chain helper `auth_events_dfs`.
The body of `resolve` itself is not part of the provided sources, so the
resolution pipeline (conflict analysis, authority ordering, mainline, iterative
merge, orchestration) is modelled from the specification, while
`auth_events_dfs` is embedded directly from the test source.

Opaque identifiers of the source (event ids, user ids, room ids, event types,
state keys) are modelled as natural numbers: the source only ever compares
them for equality and total (byte/string) order, which Nat provides.
-/

namespace StateRes

/-- Event identifiers: opaque, totally ordered (modelling `OwnedEventId`,
whose ordering is the byte/string ordering). -/
abbrev EventId := Nat

/-- A state slot: (event-type, state-key) pair, both opaque identifiers
(modelling `(StateEventType, String)`). -/
abbrev Slot := Nat × Nat

/-- A state map: association list from slots to event ids (modelling
`StateMap<OwnedEventId>`; it is used as a pure mapping). -/
abbrev StateMap := List (Slot × EventId)

/-- Distinguished event-type code for `m.room.create`. -/
def tCreate : Nat := 0

/-- Distinguished event-type code for `m.room.power_levels`. -/
def tPowerLevels : Nat := 1

/-- Distinguished event-type code for `m.room.join_rules`. -/
def tJoinRules : Nat := 2

/-- Distinguished event-type code for `m.room.member`. -/
def tMember : Nat := 3

/-- Distinguished membership-content code for `ban`. -/
def mBan : Nat := 0

/-- Distinguished membership-content code for `leave` (kick / invite
revocation when the state key differs from the sender). -/
def mLeave : Nat := 1

/-- An event (PDU), mirroring the fields of the `Pdu` struct of
`tests/it/resolve.rs` and the read accessors of the `Event` trait: identity,
room, sender, origin timestamp, type tag, optional state key, previous-event
references, authorizing-event references, optional redaction target and the
rejected flag.  The opaque JSON content is modelled by the two components the
resolution core reads through its capabilities: the membership value (for
authority classification) and the power-level assignments (for power rank). -/
structure Event where
  event_id : EventId
  room_id : Nat
  sender : Nat
  origin_server_ts : Nat
  kind : Nat
  state_key : Option Nat
  prev_events : List EventId
  auth_events : List EventId
  redacts : Option EventId
  rejected : Bool
  membership : Option Nat
  power_users : List (Nat × Int)
deriving DecidableEq, Repr

/-- Error taxonomy of the resolver (spec section 7). -/
inductive ResError where
  | arityMismatch : ResError
  | notAStateEvent : ResError
  | fetchMissing : EventId → ResError
  | cycleDetected : ResError
deriving DecidableEq, Repr

/-- The fetch capability over a finite event store: look an event up by id
(modelling `pdus_by_id.get(x).cloned()` / `HashMap` lookup). -/
def fetchE (store : List Event) (id : EventId) : Option Event :=
  store.find? (fun ev => ev.event_id == id)

/-- The ids present in the event store. -/
def storeIds (store : List Event) : List EventId :=
  store.map (fun ev => ev.event_id)

theorem fetchE_mem_storeIds {store : List Event} {id : EventId} {e : Event}
    (h : fetchE store id = some e) : id ∈ storeIds store := by
  unfold fetchE at h
  have hmem := List.mem_of_find?_eq_some h
  have hpred := List.find?_some h
  have : e.event_id = id := by simpa using hpred
  subst this
  exact List.mem_map_of_mem _ hmem

/-! ### State-map operations -/

/-- Look up a slot in a state map (first binding wins, as in a map). -/
def smLookup : StateMap → Slot → Option EventId
  | [], _ => none
  | (s', v) :: t, s => if s = s' then some v else smLookup t s

/-- Insert or replace a binding in a state map. -/
def smInsert (s : Slot) (v : EventId) : StateMap → StateMap
  | [] => [(s, v)]
  | (s', v') :: t => if s = s' then (s, v) :: t else (s', v') :: smInsert s v t

theorem smLookup_insert_self (s : Slot) (v : EventId) (m : StateMap) :
    smLookup (smInsert s v m) s = some v := by
  induction m with
  | nil => simp [smInsert, smLookup]
  | cons p t ih =>
    obtain ⟨s', v'⟩ := p
    by_cases h : s = s'
    · simp [smInsert, h, smLookup]
    · simp [smInsert, h, smLookup, ih]

theorem smLookup_insert_of_ne {s s' : Slot} (hne : s' ≠ s) (v : EventId) (m : StateMap) :
    smLookup (smInsert s v m) s' = smLookup m s' := by
  induction m with
  | nil => simp [smInsert, smLookup, hne]
  | cons p t ih =>
    obtain ⟨s0, v0⟩ := p
    by_cases h : s = s0
    · subst h
      simp [smInsert, smLookup, hne]
    · by_cases h2 : s' = s0
      · simp [smInsert, h, smLookup, h2]
      · simp [smInsert, h, smLookup, h2, ih]

theorem smLookup_eq_some_mem {m : StateMap} {s : Slot} {v : EventId}
    (h : smLookup m s = some v) : (s, v) ∈ m := by
  induction m with
  | nil => simp [smLookup] at h
  | cons p t ih =>
    obtain ⟨s', v'⟩ := p
    by_cases he : s = s'
    · subst he
      simp [smLookup] at h
      simp [h]
    · simp [smLookup, he] at h
      exact List.mem_cons_of_mem _ (ih h)

/-! ### Canonical lists

The conflict analyzer hands the rest of the pipeline canonical (sorted,
duplicate-free) lists of slots and event ids, so the pipeline's behavior is a
function of the input sets rather than of their presentation order. -/

/-- Total order on slots: lexicographic on the two components. -/
def slotR (a b : Slot) : Prop := a.1 < b.1 ∨ (a.1 = b.1 ∧ a.2 ≤ b.2)

instance : DecidableRel slotR := fun a b =>
  inferInstanceAs (Decidable (a.1 < b.1 ∨ (a.1 = b.1 ∧ a.2 ≤ b.2)))

instance : IsTotal Slot slotR :=
  ⟨fun a b => by unfold slotR; omega⟩

instance : IsTrans Slot slotR :=
  ⟨fun a b c hab hbc => by unfold slotR at *; omega⟩

instance : IsAntisymm Slot slotR :=
  ⟨fun a b hab hba => by
    unfold slotR at *
    have h1 : a.1 = b.1 := by omega
    have h2 : a.2 = b.2 := by omega
    exact Prod.ext h1 h2⟩

/-- Canonical form of a list of event ids: sorted and duplicate-free. -/
def canonIds (l : List EventId) : List EventId :=
  List.insertionSort (· ≤ ·) l.dedup

/-- Canonical form of a list of slots: sorted and duplicate-free. -/
def canonSlots (l : List Slot) : List Slot :=
  List.insertionSort slotR l.dedup

theorem mem_canonIds {l : List EventId} {x : EventId} : x ∈ canonIds l ↔ x ∈ l := by
  unfold canonIds
  rw [(List.perm_insertionSort (· ≤ ·) l.dedup).mem_iff]
  exact List.mem_dedup

theorem mem_canonSlots {l : List Slot} {x : Slot} : x ∈ canonSlots l ↔ x ∈ l := by
  unfold canonSlots
  rw [(List.perm_insertionSort slotR l.dedup).mem_iff]
  exact List.mem_dedup

theorem canonIds_eq_of_mem_iff {l l' : List EventId}
    (h : ∀ x, x ∈ l ↔ x ∈ l') : canonIds l = canonIds l' := by
  unfold canonIds
  refine List.eq_of_perm_of_sorted ?_ (List.sorted_insertionSort _ _)
    (List.sorted_insertionSort _ _)
  refine (List.perm_insertionSort _ _).trans (List.Perm.trans ?_ (List.perm_insertionSort _ _).symm)
  rw [List.perm_ext_iff_of_nodup (List.nodup_dedup l) (List.nodup_dedup l')]
  intro a
  rw [List.mem_dedup, List.mem_dedup]
  exact h a

theorem canonSlots_eq_of_mem_iff {l l' : List Slot}
    (h : ∀ x, x ∈ l ↔ x ∈ l') : canonSlots l = canonSlots l' := by
  unfold canonSlots
  refine List.eq_of_perm_of_sorted ?_ (List.sorted_insertionSort _ _)
    (List.sorted_insertionSort _ _)
  refine (List.perm_insertionSort _ _).trans (List.Perm.trans ?_ (List.perm_insertionSort _ _).symm)
  rw [List.perm_ext_iff_of_nodup (List.nodup_dedup l) (List.nodup_dedup l')]
  intro a
  rw [List.mem_dedup, List.mem_dedup]
  exact h a

theorem canonSlots_nodup (l : List Slot) : (canonSlots l).Nodup := by
  unfold canonSlots
  exact (List.perm_insertionSort slotR l.dedup).nodup_iff.mpr (List.nodup_dedup l)

/-! ### Conflict analysis (spec section 4.2)

Modelled from the spec: the `ConflictAnalyzer` component of `resolve` is not
among the provided sources.  Given N state maps it partitions slots into
unconflicted (present in every snapshot with one agreed value) and conflicted
(any disagreement or partial absence), and adds the auth difference
(union minus intersection of the N auth chains) to the candidate set. -/

/-- All slots mentioned by any snapshot, in canonical order. -/
def allSlots (snapshots : List StateMap) : List Slot :=
  canonSlots (snapshots.flatMap (fun m => m.map Prod.fst))

/-- Modelled from the spec: a slot is unconflicted iff it is present in every
snapshot and all snapshots bind it to one agreed event id. -/
def isUnconfB (snapshots : List StateMap) (s : Slot) : Bool :=
  match snapshots with
  | [] => false
  | m0 :: _ =>
    (smLookup m0 s).isSome &&
      snapshots.all (fun m => smLookup m s == smLookup m0 s)

/-- The agreed value of a slot, read from the first snapshot. -/
def commonVal (snapshots : List StateMap) (s : Slot) : Option EventId :=
  match snapshots with
  | [] => none
  | m0 :: _ => smLookup m0 s

/-- Modelled from the spec: a slot is conflicted iff it is present in at least
one snapshot and it is not unconflicted (values disagree, or it is present in
some snapshots and absent in others). -/
def isConfB (snapshots : List StateMap) (s : Slot) : Bool :=
  snapshots.any (fun m => (smLookup m s).isSome) && !(isUnconfB snapshots s)

/-- Modelled from the spec: the unconflicted output state map, one agreed
binding per unconflicted slot, in canonical slot order. -/
def unconMap (snapshots : List StateMap) : StateMap :=
  (allSlots snapshots).filterMap (fun s =>
    if isUnconfB snapshots s then (commonVal snapshots s).map (fun v => (s, v)) else none)

/-- Modelled from the spec: every event id bound to a conflicted slot by some
snapshot. -/
def conflictedVals (snapshots : List StateMap) : List EventId :=
  (allSlots snapshots).flatMap (fun s =>
    if isConfB snapshots s then snapshots.filterMap (fun m => smLookup m s) else [])

/-- Modelled from the spec: the auth difference, i.e. every event id in the
union of the auth chains that is missing from at least one of them. -/
def authDiff (chains : List (List EventId)) : List EventId :=
  (chains.flatMap id).filter (fun x => !(chains.all (fun c => x ∈ c)))

/-- Modelled from the spec: the full conflicted set (candidate set) =
conflicted slot values ∪ auth difference, in canonical order. -/
def candidateIds (snapshots : List StateMap) (chains : List (List EventId)) :
    List EventId :=
  canonIds (conflictedVals snapshots ++ authDiff chains)

/-- Declarative reading of slot conflict, phrased as in the spec: present in
at least one snapshot, and either two present values disagree or the slot is
present in some snapshots and absent in others. -/
def SlotConflicted (snapshots : List StateMap) (s : Slot) : Prop :=
  (∃ m ∈ snapshots, ∃ v, smLookup m s = some v) ∧
    ((∃ m ∈ snapshots, ∃ m2 ∈ snapshots, ∃ v v2,
        smLookup m s = some v ∧ smLookup m2 s = some v2 ∧ v ≠ v2) ∨
      (∃ m ∈ snapshots, (smLookup m s).isSome ∧ ∃ m2 ∈ snapshots, smLookup m2 s = none))

theorem smLookup_some_mem_slots {m : StateMap} {s : Slot} {v : EventId}
    (h : smLookup m s = some v) : s ∈ m.map Prod.fst := by
  have := smLookup_eq_some_mem h
  exact List.mem_map_of_mem Prod.fst this

theorem isUnconfB_iff (snapshots : List StateMap) (s : Slot) :
    isUnconfB snapshots s = true ↔
      (snapshots ≠ [] ∧ ∃ v, ∀ m ∈ snapshots, smLookup m s = some v) := by
  cases snapshots with
  | nil => simp [isUnconfB]
  | cons m0 rest =>
    simp only [isUnconfB, Bool.and_eq_true, List.all_eq_true, beq_iff_eq]
    constructor
    · rintro ⟨hsome, hall⟩
      obtain ⟨v, hv⟩ := Option.isSome_iff_exists.mp hsome
      refine ⟨by simp, v, ?_⟩
      intro m hm
      rw [hall m hm, hv]
    · rintro ⟨-, v, hv⟩
      have h0 : smLookup m0 s = some v := hv m0 (by simp)
      refine ⟨by simp [h0], ?_⟩
      intro m hm
      rw [hv m hm, h0]

theorem isConfB_iff (snapshots : List StateMap) (s : Slot) :
    isConfB snapshots s = true ↔ SlotConflicted snapshots s := by
  unfold isConfB SlotConflicted
  simp only [Bool.and_eq_true, Bool.not_eq_eq_eq_not, Bool.not_true, List.any_eq_true]
  constructor
  · rintro ⟨⟨m, hm, hsome⟩, hnu⟩
    obtain ⟨v, hv⟩ := Option.isSome_iff_exists.mp hsome
    refine ⟨⟨m, hm, v, hv⟩, ?_⟩
    have hne : ¬ (snapshots ≠ [] ∧ ∃ w, ∀ m2 ∈ snapshots, smLookup m2 s = some w) := by
      intro hc
      rw [← isUnconfB_iff] at hc
      rw [hnu] at hc
      exact Bool.false_ne_true hc
    push_neg at hne
    have hnex := hne (by rintro rfl; exact (List.not_mem_nil m) hm)
    -- for the agreed value v there is a snapshot that does not map s to v
    obtain ⟨m2, hm2, hne2⟩ := hnex v
    cases h2 : smLookup m2 s with
    | none => exact Or.inr ⟨m, hm, by simp [hv], m2, hm2, h2⟩
    | some v2 =>
      refine Or.inl ⟨m2, hm2, m, hm, v2, v, h2, hv, ?_⟩
      intro he
      exact hne2 (by rw [h2, he])
  · rintro ⟨⟨m, hm, v, hv⟩, hbad⟩
    refine ⟨⟨m, hm, by simp [hv]⟩, ?_⟩
    rw [← Bool.not_eq_true, isUnconfB_iff]
    rintro ⟨-, w, hw⟩
    rcases hbad with ⟨ma, hma, mb, hmb, va, vb, hva, hvb, hne⟩ | ⟨ma, hma, hsa, mb, hmb, hb⟩
    · have ha := hw ma hma
      have hbq := hw mb hmb
      rw [hva] at ha
      rw [hvb] at hbq
      apply hne
      rw [Option.some_inj] at ha hbq
      rw [ha, hbq]
    · have hbq := hw mb hmb
      rw [hb] at hbq
      exact Option.noConfusion hbq

theorem mem_candidateIds (snapshots : List StateMap) (chains : List (List EventId))
    (x : EventId) :
    x ∈ candidateIds snapshots chains ↔
      (∃ s, SlotConflicted snapshots s ∧ ∃ m ∈ snapshots, smLookup m s = some x) ∨
        ((∃ c ∈ chains, x ∈ c) ∧ ¬(∀ c ∈ chains, x ∈ c)) := by
  unfold candidateIds
  rw [mem_canonIds, List.mem_append]
  constructor
  · rintro (hc | ha)
    · left
      unfold conflictedVals at hc
      simp only [List.mem_flatMap] at hc
      obtain ⟨s, hs, hin⟩ := hc
      by_cases hcf : isConfB snapshots s
      · simp only [hcf, if_pos, List.mem_filterMap] at hin
        obtain ⟨m, hm, hv⟩ := hin
        exact ⟨s, (isConfB_iff _ _).mp hcf, m, hm, hv⟩
      · simp [hcf] at hin
    · right
      unfold authDiff at ha
      simp only [List.mem_filter, List.mem_flatMap, id] at ha
      obtain ⟨⟨c, hc, hxc⟩, hnall⟩ := ha
      refine ⟨⟨c, hc, hxc⟩, ?_⟩
      intro hall
      rw [Bool.not_eq_true', List.all_eq_false] at hnall
      obtain ⟨c2, hc2, hmiss⟩ := hnall
      simp at hmiss
      exact hmiss (hall c2 hc2)
  · rintro (⟨s, hcf, m, hm, hv⟩ | ⟨⟨c, hc, hxc⟩, hnall⟩)
    · left
      unfold conflictedVals
      simp only [List.mem_flatMap]
      refine ⟨s, ?_, ?_⟩
      · unfold allSlots
        rw [mem_canonSlots, List.mem_flatMap]
        exact ⟨m, hm, smLookup_some_mem_slots hv⟩
      · simp only [(isConfB_iff snapshots s).mpr hcf, if_pos, List.mem_filterMap]
        exact ⟨m, hm, hv⟩
    · right
      unfold authDiff
      simp only [List.mem_filter, List.mem_flatMap, id]
      refine ⟨⟨c, hc, hxc⟩, ?_⟩
      rw [Bool.not_eq_true', List.all_eq_false]
      push_neg at hnall
      obtain ⟨c2, hc2, hmiss⟩ := hnall
      exact ⟨c2, hc2, by simpa using hmiss⟩


/-! ### Auth-chain DFS, embedded from `auth_events_dfs` (tests/it/resolve.rs)

The Rust function runs a stack/visited-set loop:

    let mut out = HashSet::new();
    let mut stack = pdu.auth_events().cloned().collect::<Vec<_>>();
    while let Some(event_id) = stack.pop() {
        if out.contains(&event_id) { continue; }
        out.insert(event_id.clone());
        stack.extend(pdus_by_id.get(&event_id).ok_or(...)?.auth_events().cloned());
    }

The loop is embedded with an explicit fuel parameter (`none` = fuel ran out);
`dfsBound` is proven sufficient below, which is the termination argument. A
Lean list with its head as the top of the stack models the `Vec` popped from
the end, hence the `reverse` when pushing a batch. The Rust `String` error
`missing required PDU: {event_id}` is the spec error `FetchMissing(id)`. -/

/-- Fuel-metered DFS loop of `auth_events_dfs`. -/
def dfsEAux (store : List Event) : Nat → List EventId → List EventId →
    Option (Except ResError (List EventId))
  | _, [], visited => some (.ok visited)
  | 0, _ :: _, _ => none
  | fuel + 1, id :: rest, visited =>
    if id ∈ visited then dfsEAux store fuel rest visited
    else
      match fetchE store id with
      | none => some (.error (.fetchMissing id))
      | some e => dfsEAux store fuel (e.auth_events.reverse ++ rest) (id :: visited)

/-- The longest auth-event list of any stored event. -/
def maxAuths (store : List Event) : Nat :=
  store.foldr (fun e acc => max e.auth_events.length acc) 0

/-- How many distinct stored ids are not yet visited. -/
def freshCount (store : List Event) (visited : List EventId) : Nat :=
  (((storeIds store).dedup).filter (fun x => decide (¬ x ∈ visited))).length

/-- Sufficient fuel for the DFS loop: every expansion step consumes one fresh
stored id and pushes at most `maxAuths` new stack entries. -/
def dfsBound (store : List Event) (stack visited : List EventId) : Nat :=
  stack.length + freshCount store visited * (1 + maxAuths store)

theorem auths_le_maxAuths {store : List Event} {e : Event} (h : e ∈ store) :
    e.auth_events.length ≤ maxAuths store := by
  induction store with
  | nil => cases h
  | cons a t ih =>
    rcases List.mem_cons.mp h with rfl | ht
    · exact le_max_left _ _
    · exact le_trans (ih ht) (le_max_right _ _)

theorem filter_cons_visited_length {l : List EventId} (hn : l.Nodup) {id : EventId}
    (hm : id ∈ l) {visited : List EventId} (hnv : ¬ id ∈ visited) :
    (l.filter (fun x => decide (¬ x ∈ id :: visited))).length + 1 =
      (l.filter (fun x => decide (¬ x ∈ visited))).length := by
  induction l with
  | nil => cases hm
  | cons a t ih =>
    rcases List.nodup_cons.mp hn with ⟨hat, hnt⟩
    rcases List.mem_cons.mp hm with hid | hmt
    · -- head is the freshly visited id
      subst hid
      rw [List.filter_cons_of_neg (by simp), List.filter_cons_of_pos (by simp [hnv])]
      have hcongr : t.filter (fun x => decide (¬ x ∈ id :: visited)) =
          t.filter (fun x => decide (¬ x ∈ visited)) := by
        apply List.filter_congr
        intro x hx
        have hxa : x ≠ id := fun he => hat (he ▸ hx)
        simp [List.mem_cons, hxa]
      rw [hcongr]
      simp
    · -- the freshly visited id sits in the tail
      have hai : a ≠ id := fun he => hat (he ▸ hmt)
      by_cases hav : a ∈ visited
      · rw [List.filter_cons_of_neg (by simp [hav]), List.filter_cons_of_neg (by simp [hav])]
        exact ih hnt hmt
      · rw [List.filter_cons_of_pos (by simp [hai, hav]),
          List.filter_cons_of_pos (by simp [hav])]
        simp only [List.length_cons]
        have := ih hnt hmt
        omega

theorem freshCount_cons {store : List Event} {id : EventId} (hm : id ∈ storeIds store)
    {visited : List EventId} (hnv : ¬ id ∈ visited) :
    freshCount store (id :: visited) + 1 = freshCount store visited := by
  unfold freshCount
  exact filter_cons_visited_length (List.nodup_dedup _) (List.mem_dedup.mpr hm) hnv

/-- Termination of the DFS loop: the fuel bound is sufficient, so the loop
always produces an answer — also on graphs whose auth references contain a
cycle, since a visited id is never re-expanded. -/
theorem dfsEAux_isSome (store : List Event) :
    ∀ fuel stack visited, dfsBound store stack visited ≤ fuel →
      (dfsEAux store fuel stack visited).isSome := by
  intro fuel
  induction fuel with
  | zero =>
    intro stack visited h
    cases stack with
    | nil => simp [dfsEAux]
    | cons id rest =>
      exfalso
      unfold dfsBound at h
      simp at h
  | succ n ih =>
    intro stack visited h
    cases stack with
    | nil => simp [dfsEAux]
    | cons id rest =>
      by_cases hv : id ∈ visited
      · rw [dfsEAux, if_pos hv]
        apply ih
        unfold dfsBound at h ⊢
        simp only [List.length_cons] at h
        omega
      · rw [dfsEAux, if_neg hv]
        cases hf : fetchE store id with
        | none => simp
        | some e =>
          apply ih
          have hid : id ∈ storeIds store := fetchE_mem_storeIds hf
          have hfc := freshCount_cons hid hv
          have hmem : e ∈ store := List.mem_of_find?_eq_some hf
          have hlen : e.auth_events.length ≤ maxAuths store := auths_le_maxAuths hmem
          unfold dfsBound at h ⊢
          simp only [List.length_cons, List.length_append, List.length_reverse] at h ⊢
          -- fresh count strictly decreases, paying for the pushed auth events
          have hF : freshCount store visited ≥ 1 := by omega
          nlinarith [hfc, hlen, h]

/-- Transitive reachability along auth-event references, starting from a set
of ids, through events resolvable in the store. -/
inductive Reach (store : List Event) (starts : List EventId) : EventId → Prop where
  | base {id : EventId} : id ∈ starts → Reach store starts id
  | step {j : EventId} {e : Event} {id : EventId} : Reach store starts j →
      fetchE store j = some e → id ∈ e.auth_events → Reach store starts id

theorem Reach.mono {store : List Event} {S T : List EventId} {x : EventId}
    (h : Reach store S x) (hst : ∀ a ∈ S, Reach store T a) : Reach store T x := by
  induction h with
  | base hm => exact hst _ hm
  | step hr hf hm ih => exact Reach.step ih hf hm

theorem Reach.of_subset {store : List Event} {S T : List EventId} {x : EventId}
    (h : Reach store S x) (hst : ∀ a ∈ S, a ∈ T) : Reach store T x :=
  h.mono (fun a ha => Reach.base (hst a ha))

/-- Soundness of the DFS loop: everything collected is previously visited or
reachable from the stack. -/
theorem dfsEAux_sound (store : List Event) :
    ∀ fuel stack visited out,
      dfsEAux store fuel stack visited = some (.ok out) →
      ∀ x ∈ out, x ∈ visited ∨ Reach store stack x := by
  intro fuel
  induction fuel with
  | zero =>
    intro stack visited out h
    cases stack with
    | nil =>
      simp [dfsEAux] at h
      subst h
      exact fun x hx => Or.inl hx
    | cons id rest => simp [dfsEAux] at h
  | succ n ih =>
    intro stack visited out h
    cases stack with
    | nil =>
      simp [dfsEAux] at h
      subst h
      exact fun x hx => Or.inl hx
    | cons id rest =>
      by_cases hv : id ∈ visited
      · rw [dfsEAux, if_pos hv] at h
        intro x hx
        rcases ih rest visited out h x hx with hvis | hr
        · exact Or.inl hvis
        · exact Or.inr (hr.of_subset (fun a ha => List.mem_cons_of_mem _ ha))
      · rw [dfsEAux, if_neg hv] at h
        cases hf : fetchE store id with
        | none => rw [hf] at h; simp at h
        | some e =>
          rw [hf] at h
          intro x hx
          rcases ih _ _ out h x hx with hvis | hr
          · rcases List.mem_cons.mp hvis with rfl | hvis2
            · exact Or.inr (Reach.base (by simp))
            · exact Or.inl hvis2
          · refine Or.inr (hr.mono ?_)
            intro a ha
            rcases List.mem_append.mp ha with haa | har
            · exact Reach.step (Reach.base (by simp)) hf (List.mem_reverse.mp haa)
            · exact Reach.base (List.mem_cons_of_mem _ har)

/-- Completeness scaffolding: the collected set contains the stack and the
previously visited ids. -/
theorem dfsEAux_subset (store : List Event) :
    ∀ fuel stack visited out,
      dfsEAux store fuel stack visited = some (.ok out) →
      (∀ x ∈ stack, x ∈ out) ∧ (∀ x ∈ visited, x ∈ out) := by
  intro fuel
  induction fuel with
  | zero =>
    intro stack visited out h
    cases stack with
    | nil =>
      simp [dfsEAux] at h
      subst h
      exact ⟨by simp, fun x hx => hx⟩
    | cons id rest => simp [dfsEAux] at h
  | succ n ih =>
    intro stack visited out h
    cases stack with
    | nil =>
      simp [dfsEAux] at h
      subst h
      exact ⟨by simp, fun x hx => hx⟩
    | cons id rest =>
      by_cases hv : id ∈ visited
      · rw [dfsEAux, if_pos hv] at h
        obtain ⟨hs, hvs⟩ := ih rest visited out h
        refine ⟨?_, hvs⟩
        intro x hx
        rcases List.mem_cons.mp hx with rfl | hxr
        · exact hvs _ hv
        · exact hs _ hxr
      · rw [dfsEAux, if_neg hv] at h
        cases hf : fetchE store id with
        | none => rw [hf] at h; simp at h
        | some e =>
          rw [hf] at h
          obtain ⟨hs, hvs⟩ := ih _ _ out h
          refine ⟨?_, ?_⟩
          · intro x hx
            rcases List.mem_cons.mp hx with rfl | hxr
            · exact hvs _ (by simp)
            · exact hs _ (List.mem_append_right _ hxr)
          · intro x hx
            exact hvs _ (List.mem_cons_of_mem _ hx)

/-- Closure: on success every collected id resolves in the store and its auth
events are collected as well (given that the incoming visited set is already
closed up to the stack). -/
theorem dfsEAux_closed (store : List Event) :
    ∀ fuel stack visited out,
      (∀ v ∈ visited, ∃ e, fetchE store v = some e ∧
        ∀ a ∈ e.auth_events, a ∈ visited ∨ a ∈ stack) →
      dfsEAux store fuel stack visited = some (.ok out) →
      ∀ x ∈ out, ∃ e, fetchE store x = some e ∧ ∀ a ∈ e.auth_events, a ∈ out := by
  intro fuel
  induction fuel with
  | zero =>
    intro stack visited out hinv h
    cases stack with
    | nil =>
      simp [dfsEAux] at h
      subst h
      intro x hx
      obtain ⟨e, he, ha⟩ := hinv x hx
      refine ⟨e, he, ?_⟩
      intro a haa
      rcases ha a haa with h1 | h1
      · exact h1
      · cases h1
    | cons id rest => simp [dfsEAux] at h
  | succ n ih =>
    intro stack visited out hinv h
    cases stack with
    | nil =>
      simp [dfsEAux] at h
      subst h
      intro x hx
      obtain ⟨e, he, ha⟩ := hinv x hx
      refine ⟨e, he, ?_⟩
      intro a haa
      rcases ha a haa with h1 | h1
      · exact h1
      · cases h1
    | cons id rest =>
      by_cases hv : id ∈ visited
      · rw [dfsEAux, if_pos hv] at h
        refine ih rest visited out ?_ h
        intro v hvv
        obtain ⟨e, he, ha⟩ := hinv v hvv
        refine ⟨e, he, ?_⟩
        intro a haa
        rcases ha a haa with h1 | h1
        · exact Or.inl h1
        · rcases List.mem_cons.mp h1 with rfl | h2
          · exact Or.inl hv
          · exact Or.inr h2
      · rw [dfsEAux, if_neg hv] at h
        cases hf : fetchE store id with
        | none => rw [hf] at h; simp at h
        | some e =>
          rw [hf] at h
          refine ih _ _ out ?_ h
          intro v hvv
          rcases List.mem_cons.mp hvv with rfl | hv2
          · refine ⟨e, hf, ?_⟩
            intro a haa
            exact Or.inr (List.mem_append_left _ (List.mem_reverse.mpr haa))
          · obtain ⟨e2, he2, ha2⟩ := hinv v hv2
            refine ⟨e2, he2, ?_⟩
            intro a haa
            rcases ha2 a haa with h1 | h1
            · exact Or.inl (List.mem_cons_of_mem _ h1)
            · rcases List.mem_cons.mp h1 with rfl | h2
              · exact Or.inl (by simp)
              · exact Or.inr (List.mem_append_right _ h2)

/-- Error characterization: a failing DFS loop names a reachable id that the
store cannot resolve. -/
theorem dfsEAux_error (store : List Event) :
    ∀ fuel stack visited err,
      dfsEAux store fuel stack visited = some (.error err) →
      ∃ x, err = .fetchMissing x ∧ Reach store stack x ∧ fetchE store x = none := by
  intro fuel
  induction fuel with
  | zero =>
    intro stack visited err h
    cases stack with
    | nil => simp [dfsEAux] at h
    | cons id rest => simp [dfsEAux] at h
  | succ n ih =>
    intro stack visited err h
    cases stack with
    | nil => simp [dfsEAux] at h
    | cons id rest =>
      by_cases hv : id ∈ visited
      · rw [dfsEAux, if_pos hv] at h
        obtain ⟨x, he, hr, hf⟩ := ih rest visited err h
        exact ⟨x, he, hr.of_subset (fun a ha => List.mem_cons_of_mem _ ha), hf⟩
      · rw [dfsEAux, if_neg hv] at h
        cases hf : fetchE store id with
        | none =>
          rw [hf] at h
          simp at h
          exact ⟨id, h.symm, Reach.base (by simp), hf⟩
        | some e =>
          rw [hf] at h
          obtain ⟨x, he, hr, hfx⟩ := ih _ _ err h
          refine ⟨x, he, hr.mono ?_, hfx⟩
          intro a ha
          rcases List.mem_append.mp ha with haa | har
          · exact Reach.step (Reach.base (by simp)) hf (List.mem_reverse.mp haa)
          · exact Reach.base (List.mem_cons_of_mem _ har)

/-- No re-expansion: the collected list never holds an id twice. -/
theorem dfsEAux_nodup (store : List Event) :
    ∀ fuel stack visited out, visited.Nodup →
      dfsEAux store fuel stack visited = some (.ok out) → out.Nodup := by
  intro fuel
  induction fuel with
  | zero =>
    intro stack visited out hn h
    cases stack with
    | nil => simp [dfsEAux] at h; subst h; exact hn
    | cons id rest => simp [dfsEAux] at h
  | succ n ih =>
    intro stack visited out hn h
    cases stack with
    | nil => simp [dfsEAux] at h; subst h; exact hn
    | cons id rest =>
      by_cases hv : id ∈ visited
      · rw [dfsEAux, if_pos hv] at h
        exact ih rest visited out hn h
      · rw [dfsEAux, if_neg hv] at h
        cases hf : fetchE store id with
        | none => rw [hf] at h; simp at h
        | some e =>
          rw [hf] at h
          exact ih _ _ out (List.nodup_cons.mpr ⟨hv, hn⟩) h

/-- The DFS with its sufficient fuel (total wrapper; the default branch is
unreachable by `dfsEAux_isSome`). -/
def dfsE (store : List Event) (stack : List EventId) : Except ResError (List EventId) :=
  (dfsEAux store (dfsBound store stack []) stack []).getD (.error .cycleDetected)

theorem dfsEAux_eq_dfsE (store : List Event) (stack : List EventId) :
    dfsEAux store (dfsBound store stack []) stack [] = some (dfsE store stack) := by
  have h := dfsEAux_isSome store (dfsBound store stack []) stack [] le_rfl
  cases hx : dfsEAux store (dfsBound store stack []) stack [] with
  | none => rw [hx] at h; simp at h
  | some r => simp [dfsE, hx]

/-- The function `auth_events_dfs` of `tests/it/resolve.rs`: the recursive auth chain of a
PDU, starting from its direct auth events (popped from the back of the Vec,
hence the reversed initial stack). -/
def auth_events_dfs (store : List Event) (pdu : Event) : Except ResError (List EventId) :=
  dfsE store pdu.auth_events.reverse

/-! ### Total DFS variant

Modelled from the spec: mainline-position lookups (section 4.6) walk the
authorizing chain without a specified error path, so they use a total variant
of the DFS that skips unresolvable references; on inputs where the checked
DFS succeeds the two agree (`dfsTAux_eq_of_ok`). -/

/-- Fuel-metered total DFS: like `dfsEAux` but an unresolvable reference is
skipped instead of failing. -/
def dfsTAux (store : List Event) : Nat → List EventId → List EventId →
    Option (List EventId)
  | _, [], visited => some visited
  | 0, _ :: _, _ => none
  | fuel + 1, id :: rest, visited =>
    if id ∈ visited then dfsTAux store fuel rest visited
    else
      match fetchE store id with
      | none => dfsTAux store fuel rest visited
      | some e => dfsTAux store fuel (e.auth_events.reverse ++ rest) (id :: visited)

theorem dfsTAux_isSome (store : List Event) :
    ∀ fuel stack visited, dfsBound store stack visited ≤ fuel →
      (dfsTAux store fuel stack visited).isSome := by
  intro fuel
  induction fuel with
  | zero =>
    intro stack visited h
    cases stack with
    | nil => simp [dfsTAux]
    | cons id rest =>
      exfalso
      unfold dfsBound at h
      simp at h
  | succ n ih =>
    intro stack visited h
    cases stack with
    | nil => simp [dfsTAux]
    | cons id rest =>
      by_cases hv : id ∈ visited
      · rw [dfsTAux, if_pos hv]
        apply ih
        unfold dfsBound at h ⊢
        simp only [List.length_cons] at h
        omega
      · rw [dfsTAux, if_neg hv]
        cases hf : fetchE store id with
        | none =>
          apply ih
          unfold dfsBound at h ⊢
          simp only [List.length_cons] at h
          omega
        | some e =>
          apply ih
          have hid : id ∈ storeIds store := fetchE_mem_storeIds hf
          have hfc := freshCount_cons hid hv
          have hmem : e ∈ store := List.mem_of_find?_eq_some hf
          have hlen : e.auth_events.length ≤ maxAuths store := auths_le_maxAuths hmem
          unfold dfsBound at h ⊢
          simp only [List.length_cons, List.length_append, List.length_reverse] at h ⊢
          have hF : freshCount store visited ≥ 1 := by omega
          nlinarith [hfc, hlen, h]

theorem dfsTAux_eq_of_ok (store : List Event) :
    ∀ fuel stack visited out, dfsEAux store fuel stack visited = some (.ok out) →
      dfsTAux store fuel stack visited = some out := by
  intro fuel
  induction fuel with
  | zero =>
    intro stack visited out h
    cases stack with
    | nil => simp [dfsEAux] at h; simp [dfsTAux, h]
    | cons id rest => simp [dfsEAux] at h
  | succ n ih =>
    intro stack visited out h
    cases stack with
    | nil => simp [dfsEAux] at h; simp [dfsTAux, h]
    | cons id rest =>
      by_cases hv : id ∈ visited
      · rw [dfsEAux, if_pos hv] at h
        rw [dfsTAux, if_pos hv]
        exact ih _ _ _ h
      · rw [dfsEAux, if_neg hv] at h
        rw [dfsTAux, if_neg hv]
        cases hf : fetchE store id with
        | none => rw [hf] at h; simp at h
        | some e =>
          rw [hf] at h
          exact ih _ _ _ h

/-- Total DFS with its sufficient fuel. -/
def dfsT (store : List Event) (stack : List EventId) : List EventId :=
  (dfsTAux store (dfsBound store stack []) stack []).getD []

/-- Total auth chain of an event id: DFS from the direct auth events of the
fetched event; empty when the id itself does not resolve. -/
def chainFT (store : List Event) (id : EventId) : List EventId :=
  match fetchE store id with
  | none => []
  | some e => dfsT store e.auth_events.reverse

/-- Checked auth chain of an event id (fails with `FetchMissing` as in spec
section 4.1). -/
def chainOfId (store : List Event) (id : EventId) : Except ResError (List EventId) :=
  match fetchE store id with
  | none => .error (.fetchMissing id)
  | some e => auth_events_dfs store e

/-- Run the checked chain computation over a list of candidate ids, keeping
only the error behavior (spec section 4.4: ordering fails with `FetchMissing`
when a required authorizing event is unavailable). -/
def computeChains (store : List Event) : List EventId → Except ResError Unit
  | [] => .ok ()
  | id :: rest =>
    match chainOfId store id with
    | .error e => .error e
    | .ok _ => computeChains store rest

/-! ### Authority classification (spec sections 3 and 4.3)

Modelled from the spec: the `PowerEventClassifier` is not among the provided
sources.  An event is an authority event iff its type is room-creation,
power-levels or join-rules, or it is a membership event that revokes another
user's standing (ban / kick / invite revocation: membership `ban` or `leave`
with a state key different from the sender). -/

/-- Authority-event classification. -/
def is_authority (e : Event) : Bool :=
  e.kind == tCreate || e.kind == tPowerLevels || e.kind == tJoinRules ||
    (e.kind == tMember &&
      ((e.membership == some mBan || e.membership == some mLeave) &&
        e.state_key != some e.sender))

/-- Authority classification through the fetch capability. -/
def isAuthorityAt (store : List Event) (id : EventId) : Bool :=
  match fetchE store id with
  | none => false
  | some e => is_authority e

/-! ### Power rank (spec sections 4.4a and 6)

Modelled from the spec: the power rank of an event's sender is read from the
power-level event in effect in the event's own authorizing chain (the first
directly authorizing event of power-levels type), with default rank 0 when the
sender is absent from that event's assignments or no power-level event is in
scope. -/

/-- Is the id a resolvable power-levels event? -/
def isPLAt (store : List Event) (id : EventId) : Bool :=
  match fetchE store id with
  | none => false
  | some e => e.kind == tPowerLevels

/-- Association-list lookup of a user's power assignment. -/
def lookupPU : List (Nat × Int) → Nat → Option Int
  | [], _ => none
  | (u, p) :: t, u0 => if u0 = u then some p else lookupPU t u0

/-- The power-level event in scope for an event: the first of its direct auth
events that resolves to a power-levels event. -/
def findPL (store : List Event) (auths : List EventId) : Option Event :=
  (auths.find? (fun a => isPLAt store a)).bind (fetchE store)

/-- The sender's numeric power rank at an event (default 0). -/
def powerRank (store : List Event) (e : Event) : Int :=
  match findPL store e.auth_events with
  | none => 0
  | some pe => (lookupPU pe.power_users e.sender).getD 0

/-- Checked resolution of the power-level context of one event: every auth
reference before the power-level event must resolve (spec section 4.4: fails
with `FetchMissing` otherwise). -/
def powerCtx (store : List Event) : List EventId → Except ResError Unit
  | [] => .ok ()
  | a :: rest =>
    match fetchE store a with
    | none => .error (.fetchMissing a)
    | some e => if e.kind == tPowerLevels then .ok () else powerCtx store rest

/-- Checked power contexts of a list of candidate ids. -/
def checkPowerCtx (store : List Event) : List EventId → Except ResError Unit
  | [] => .ok ()
  | id :: rest =>
    match fetchE store id with
    | none => .error (.fetchMissing id)
    | some e =>
      match powerCtx store e.auth_events with
      | .error er => .error er
      | .ok _ => checkPowerCtx store rest

/-! ### Authority ordering (spec section 4.4)

Modelled from the spec: the `AuthorityOrderer` produces a deterministic total
order with causal depth most significant (an event never precedes a member of
its own auth chain) and the tie-break key (power rank descending, then origin
timestamp ascending, then event id ascending) deciding among the causally
available events.  Implemented as a topological sort that repeatedly emits
the minimal-key event none of whose unprocessed peers lies in its auth chain;
if no event is available the causal graph is cyclic (`CycleDetected`). -/

/-- Strict lexicographic order on authority sort keys
(negated power rank, origin timestamp, event id). -/
def akLt (x y : Int × Nat × Nat) : Bool :=
  x.1 < y.1 || (x.1 == y.1 && (x.2.1 < y.2.1 || (x.2.1 == y.2.1 && x.2.2 < y.2.2)))

/-- The authority sort key of an event id: negated power rank (higher power
sorts earlier), then origin timestamp, then the id itself. -/
def authKey (store : List Event) (id : EventId) : Int × Nat × Nat :=
  match fetchE store id with
  | none => (0, 0, id)
  | some e => (-(powerRank store e), e.origin_server_ts, id)

theorem akLt_iff (x y : Int × Nat × Nat) :
    akLt x y = true ↔
      (x.1 < y.1 ∨ (x.1 = y.1 ∧ (x.2.1 < y.2.1 ∨ (x.2.1 = y.2.1 ∧ x.2.2 < y.2.2)))) := by
  simp [akLt]

theorem akLt_trans {a b c : Int × Nat × Nat} (h1 : akLt a b = true)
    (h2 : akLt b c = true) : akLt a c = true := by
  rw [akLt_iff] at *
  omega

theorem akLt_neg_total {a b : Int × Nat × Nat} (h1 : akLt a b = false)
    (h2 : akLt b a = false) : a = b := by
  rw [← Bool.not_eq_true, akLt_iff] at h1 h2
  push_neg at h1 h2
  obtain ⟨x1, x2, x3⟩ := a
  obtain ⟨y1, y2, y3⟩ := b
  simp only at h1 h2 ⊢
  have e1 : x1 = y1 := by omega
  have e2 : x2 = y2 := by omega
  have e3 : x3 = y3 := by omega
  simp [e1, e2, e3]

/-- Pick the element with the minimal key (first pattern of the Rust-style
fold: keep the current best unless a strictly smaller key appears). -/
def pickMin (key : EventId → Int × Nat × Nat) : List EventId → Option EventId
  | [] => none
  | x :: xs => some (xs.foldl (fun best y => if akLt (key y) (key best) then y else best) x)

theorem akLt_irrefl (a : Int × Nat × Nat) : akLt a a = false := by
  cases h : akLt a a with
  | false => rfl
  | true => rw [akLt_iff] at h; omega

theorem akLt_nlt_trans {a b c : Int × Nat × Nat} (h1 : akLt a b = false)
    (h2 : akLt b c = false) : akLt a c = false := by
  rw [← Bool.not_eq_true, akLt_iff] at h1 h2 ⊢
  push_neg at h1 h2 ⊢
  omega

theorem pickFold_mem (key : EventId → Int × Nat × Nat) :
    ∀ (xs : List EventId) (b : EventId),
      xs.foldl (fun best y => if akLt (key y) (key best) then y else best) b ∈ b :: xs := by
  intro xs
  induction xs with
  | nil => intro b; simp
  | cons y ys ih =>
    intro b
    rw [List.foldl_cons]
    by_cases h : akLt (key y) (key b) = true
    · rw [if_pos h]
      exact List.mem_cons_of_mem _ (ih y)
    · rw [if_neg h]
      rcases List.mem_cons.mp (ih b) with hr | hr
      · simp [hr]
      · simp [List.mem_cons_of_mem, hr]

theorem pickFold_min (key : EventId → Int × Nat × Nat) :
    ∀ (xs : List EventId) (b z : EventId), z ∈ b :: xs →
      akLt (key z)
        (key (xs.foldl (fun best y => if akLt (key y) (key best) then y else best) b)) =
        false := by
  intro xs
  induction xs with
  | nil =>
    intro b z hz
    simp at hz
    subst hz
    exact akLt_irrefl _
  | cons y ys ih =>
    intro b z hz
    rw [List.foldl_cons]
    by_cases h : akLt (key y) (key b) = true
    · rw [if_pos h]
      rcases List.mem_cons.mp hz with hzb | hz2
      · -- z = b: y beats b, and the final result is at most y
        have hy := ih y y (by simp)
        cases hc : akLt (key z)
            (key (ys.foldl (fun best w => if akLt (key w) (key best) then w else best) y)) with
        | false => rfl
        | true =>
          exfalso
          -- key y < key b = key z < key result, but the result is at most y
          rw [hzb] at hc
          have := akLt_trans h hc
          rw [hy] at this
          exact Bool.false_ne_true this
      · exact ih y z hz2
    · rw [if_neg h]
      have hnb : akLt (key y) (key b) = false := by
        cases hx : akLt (key y) (key b)
        · rfl
        · exact absurd hx h
      rcases List.mem_cons.mp hz with hzb | hz2
      · exact ih b z (by simp [hzb])
      · rcases List.mem_cons.mp hz2 with hzy | hz3
        · -- z = y lost against b, and the result is at most b
          have hbr := ih b b (by simp)
          rw [hzy]
          exact akLt_nlt_trans hnb hbr
        · exact ih b z (List.mem_cons_of_mem _ hz3)

theorem pickMin_mem {key : EventId → Int × Nat × Nat} {l : List EventId} {b : EventId}
    (h : pickMin key l = some b) : b ∈ l := by
  cases l with
  | nil => simp [pickMin] at h
  | cons x xs =>
    simp only [pickMin, Option.some_inj] at h
    subst h
    exact pickFold_mem key xs x

theorem pickMin_min {key : EventId → Int × Nat × Nat} {l : List EventId} {b : EventId}
    (h : pickMin key l = some b) : ∀ z ∈ l, akLt (key z) (key b) = false := by
  cases l with
  | nil => simp [pickMin] at h
  | cons x xs =>
    simp only [pickMin, Option.some_inj] at h
    subst h
    intro z hz
    exact pickFold_min key xs x z hz

/-- Lexicographic topological sort of the authority candidates (spec section
4.4): repeatedly emit the event with the minimal tie-break key among those
none of whose unprocessed peers lies in their auth chain; report
`CycleDetected` when no event is available.  The fuel equals the list length
at the top-level call (`kahnOrder`), which is always sufficient. -/
def kahnAux (chainF : EventId → List EventId) (key : EventId → Int × Nat × Nat) :
    Nat → List EventId → Except ResError (List EventId)
  | _, [] => .ok []
  | 0, _ :: _ => .error .cycleDetected
  | fuel + 1, x :: xs =>
    match pickMin key
        ((x :: xs).filter (fun b => (x :: xs).all (fun a => decide (¬ a ∈ chainF b)))) with
    | none => .error .cycleDetected
    | some b =>
      match kahnAux chainF key fuel ((x :: xs).erase b) with
      | .error e => .error e
      | .ok out => .ok (b :: out)

/-- The authority order over a candidate list. -/
def kahnOrder (chainF : EventId → List EventId) (key : EventId → Int × Nat × Nat)
    (l : List EventId) : Except ResError (List EventId) :=
  kahnAux chainF key l.length l

theorem kahnAux_perm (chainF : EventId → List EventId) (key : EventId → Int × Nat × Nat) :
    ∀ fuel l out, kahnAux chainF key fuel l = .ok out → out.Perm l := by
  intro fuel
  induction fuel with
  | zero =>
    intro l out h
    cases l with
    | nil => simp [kahnAux] at h; subst h; rfl
    | cons x xs => simp [kahnAux] at h
  | succ n ih =>
    intro l out h
    cases l with
    | nil => simp [kahnAux] at h; subst h; rfl
    | cons x xs =>
      rw [kahnAux] at h
      split at h
      · simp at h
      · rename_i b hp
        split at h
        · simp at h
        · rename_i rec hr
          simp only [Except.ok.injEq] at h
          subst h
          have hb : b ∈ x :: xs := List.mem_of_mem_filter (pickMin_mem hp)
          exact ((ih _ _ hr).cons b).trans (List.perm_cons_erase hb).symm

theorem kahnAux_causal (chainF : EventId → List EventId) (key : EventId → Int × Nat × Nat) :
    ∀ fuel l out, kahnAux chainF key fuel l = .ok out →
      ∀ a b, a ∈ l → b ∈ l → a ≠ b → a ∈ chainF b → [a, b].Sublist out := by
  intro fuel
  induction fuel with
  | zero =>
    intro l out h a b ha hb hne hch
    cases l with
    | nil => cases ha
    | cons x xs => simp [kahnAux] at h
  | succ n ih =>
    intro l out h a b ha hb hne hch
    cases l with
    | nil => cases ha
    | cons x xs =>
      rw [kahnAux] at h
      split at h
      · simp at h
      · rename_i b0 hp
        split at h
        · simp at h
        · rename_i rec hr
          simp only [Except.ok.injEq] at h
          subst h
          have hmemf := pickMin_mem hp
          have hb0 : b0 ∈ x :: xs := List.mem_of_mem_filter hmemf
          have havail : ∀ d ∈ x :: xs, ¬ d ∈ chainF b0 := by
            have := (List.mem_filter.mp hmemf).2
            rw [List.all_eq_true] at this
            intro d hd
            have := this d hd
            exact of_decide_eq_true this
          have hbne : b ≠ b0 := by
            intro he
            subst he
            exact havail a ha hch
          have hberase : b ∈ (x :: xs).erase b0 := (List.mem_erase_of_ne hbne).mpr hb
          by_cases hab : a = b0
          · subst hab
            have hbrec : b ∈ rec := ((kahnAux_perm chainF key n _ rec hr).mem_iff).mpr hberase
            exact (List.singleton_sublist.mpr hbrec).cons₂ a
          · have haerase : a ∈ (x :: xs).erase b0 := (List.mem_erase_of_ne hab).mpr ha
            exact (ih _ rec hr a b haerase hberase hne hch).cons b0

theorem kahnAux_noedge (chainF : EventId → List EventId) (key : EventId → Int × Nat × Nat) :
    ∀ fuel l, l.length ≤ fuel → (∀ b ∈ l, ∀ a ∈ l, ¬ a ∈ chainF b) →
      ∃ out, kahnAux chainF key fuel l = .ok out ∧
        out.Pairwise (fun p q => akLt (key q) (key p) = false) := by
  intro fuel
  induction fuel with
  | zero =>
    intro l hl hedge
    cases l with
    | nil => exact ⟨[], by simp [kahnAux], List.Pairwise.nil⟩
    | cons x xs => simp at hl
  | succ n ih =>
    intro l hl hedge
    cases l with
    | nil => exact ⟨[], by simp [kahnAux], List.Pairwise.nil⟩
    | cons x xs =>
      have hfilter : (x :: xs).filter
          (fun b => (x :: xs).all (fun a => decide (¬ a ∈ chainF b))) = x :: xs := by
        apply List.filter_eq_self.mpr
        intro b hb
        rw [List.all_eq_true]
        intro a ha
        exact decide_eq_true (hedge b hb a ha)
      rw [kahnAux, hfilter]
      cases hp : pickMin key (x :: xs) with
      | none => simp [pickMin] at hp
      | some b0 =>
        have hb0 : b0 ∈ x :: xs := pickMin_mem hp
        have hlen : ((x :: xs).erase b0).length ≤ n := by
          rw [List.length_erase_of_mem hb0]
          simp only [List.length_cons] at hl ⊢
          omega
        have hedge2 : ∀ b ∈ (x :: xs).erase b0, ∀ a ∈ (x :: xs).erase b0, ¬ a ∈ chainF b :=
          fun b hb a ha => hedge b (List.mem_of_mem_erase hb) a (List.mem_of_mem_erase ha)
        obtain ⟨out, hout, hpw⟩ := ih ((x :: xs).erase b0) hlen hedge2
        refine ⟨b0 :: out, by simp [hout], ?_⟩
        refine List.Pairwise.cons ?_ hpw
        intro q hq
        have hqmem : q ∈ x :: xs :=
          List.mem_of_mem_erase (((kahnAux_perm chainF key n _ out hout).mem_iff).mp hq)
        exact pickMin_min hp q hqmem

theorem authKey_third (store : List Event) (id : EventId) :
    (authKey store id).2.2 = id := by
  unfold authKey
  cases fetchE store id <;> rfl

theorem authKey_inj {store : List Event} {a b : EventId}
    (h : authKey store a = authKey store b) : a = b := by
  have ha := authKey_third store a
  have hb := authKey_third store b
  rw [← ha, ← hb, h]

/-! ### Mainline (spec section 4.6)

Modelled from the spec: the `MainlineBuilder` is not among the provided
sources.  From the authority-resolved state take the power-levels event, walk
backward through the power-levels member of each auth-event set, and reverse
the walk to obtain the mainline (oldest first).  The walk carries a visited
set so a (malformed) cyclic power-level lineage simply terminates the walk;
an unresolvable id ends the walk as well, since the spec names no error path
for this component. -/

/-- Fuel-metered backward walk over the power-level lineage. -/
def mlWalkAux (store : List Event) : Nat → List EventId → EventId → List EventId
  | 0, _, _ => []
  | fuel + 1, visited, cur =>
    if cur ∈ visited then []
    else
      match fetchE store cur with
      | none => [cur]
      | some e =>
        match e.auth_events.find? (fun a => isPLAt store a) with
        | none => [cur]
        | some p => cur :: mlWalkAux store fuel (cur :: visited) p

/-- The mainline: backbone of successive power-level events, oldest first. -/
def buildMainline (store : List Event) (ares : StateMap) : List EventId :=
  match smLookup ares (tPowerLevels, 0) with
  | none => []
  | some pl => (mlWalkAux store ((storeIds store).dedup.length + 1) [] pl).reverse

/-- Index of an id in the mainline. -/
def idxOfId : List EventId → EventId → Nat
  | [], _ => 0
  | a :: t, x => if x = a then 0 else idxOfId t x + 1

/-- Depth-first visit order of an event's auth chain (the total DFS collects
ids newest-first, so the reverse is the expansion order). -/
def chainOrder (store : List Event) (e : Event) : List EventId :=
  (dfsT store e.auth_events.reverse).reverse

/-- Modelled from the spec: the mainline position of an event — walk its auth
chain depth-first until a member of the mainline is found and record that
entry's index; `none` means no member was found ("before the mainline"). -/
def mainlinePos (store : List Event) (mainline : List EventId) (id : EventId) :
    Option Nat :=
  match fetchE store id with
  | none => none
  | some e =>
    ((chainOrder store e).find? (fun c => decide (c ∈ mainline))).map
      (fun c => idxOfId mainline c)

/-- Encode a mainline position so that "before the mainline" sorts first. -/
def posN : Option Nat → Nat
  | none => 0
  | some i => i + 1

/-- The ordinary-event sort key (spec section 4.7): mainline position
ascending, then origin timestamp ascending, then event id ascending. -/
def tsOf (store : List Event) (id : EventId) : Nat :=
  match fetchE store id with
  | none => 0
  | some e => e.origin_server_ts

def ordKey (store : List Event) (mainline : List EventId) (id : EventId) :
    Int × Nat × Nat :=
  ((posN (mainlinePos store mainline id) : Nat), tsOf store id, id)

/-- Modelled from the spec: ordinary events sorted by their sort key. -/
def sortOrdinary (store : List Event) (mainline : List EventId) (l : List EventId) :
    List EventId :=
  List.insertionSort
    (fun a b => akLt (ordKey store mainline b) (ordKey store mainline a) = false) l

/-! ### Iterative merge (spec sections 4.5 and 4.7)

Modelled from the spec: the `IterativeMerger` is not among the provided
sources.  Walk the ordered candidates; each accepted event overwrites its slot
in the working state, each rejected event leaves the working state untouched
and processing continues — rejection is not an error. -/

/-- One merge pass over an ordered candidate list. -/
def mergePass (check : Event → StateMap → Bool) (store : List Event) :
    List EventId → StateMap → Except ResError StateMap
  | [], st => .ok st
  | id :: rest, st =>
    match fetchE store id with
    | none => .error (.fetchMissing id)
    | some e =>
      match e.state_key with
      | none => .error .notAStateEvent
      | some k =>
        if check e st then mergePass check store rest (smInsert (e.kind, k) id st)
        else mergePass check store rest st

/-! ### The resolver (spec section 4.8)

Modelled from the spec: `ruma_state_res::resolve` itself is not among the
provided sources (only its tests are).  Orchestration: arity check, conflict
analysis, validation of the full conflicted set (every candidate must resolve
and carry a state key), authority ordering and first merge pass, mainline,
ordinary ordering and second merge pass, and finally the agreed unconflicted
bindings overlaid on the merged result (spec section 4.8: agreed slots keep
their unconflicted value). -/

/-- Validate the full conflicted set: every candidate must resolve via fetch
(`FetchMissing`) and carry a state key (`NotAStateEvent`). -/
def validateIds (store : List Event) : List EventId → Except ResError Unit
  | [] => .ok ()
  | id :: rest =>
    match fetchE store id with
    | none => .error (.fetchMissing id)
    | some e =>
      match e.state_key with
      | none => .error .notAStateEvent
      | some _ => validateIds store rest

/-- Overlay the unconflicted bindings over a merged state map. -/
def overlay (uncon : StateMap) (m : StateMap) : StateMap :=
  uncon.foldl (fun acc p => smInsert p.1 p.2 acc) m

/-- The resolution pipeline after conflict analysis, a function of the
unconflicted map and the canonical candidate list only. -/
def resolveCore (check : Event → StateMap → Bool) (store : List Event)
    (uncon : StateMap) (cands : List EventId) : Except ResError StateMap :=
  match validateIds store cands with
  | .error e => .error e
  | .ok _ =>
    match computeChains store (cands.filter (fun id => isAuthorityAt store id)) with
    | .error e => .error e
    | .ok _ =>
      match checkPowerCtx store (cands.filter (fun id => isAuthorityAt store id)) with
      | .error e => .error e
      | .ok _ =>
        match kahnOrder (chainFT store) (authKey store)
            (cands.filter (fun id => isAuthorityAt store id)) with
        | .error e => .error e
        | .ok authOrd =>
          match mergePass check store authOrd uncon with
          | .error e => .error e
          | .ok ares =>
            match mergePass check store
                (sortOrdinary store (buildMainline store ares)
                  (cands.filter (fun id => !(isAuthorityAt store id)))) ares with
            | .error e => .error e
            | .ok fin => .ok (overlay uncon fin)

/-- The public `resolve` operation: snapshots and auth chains must have equal
arity, then the pipeline runs on the conflict analysis of the inputs. -/
def resolve (check : Event → StateMap → Bool) (store : List Event)
    (snapshots : List StateMap) (chains : List (List EventId)) :
    Except ResError StateMap :=
  if snapshots.length = chains.length then
    resolveCore check store (unconMap snapshots) (candidateIds snapshots chains)
  else .error .arityMismatch

/-! ### Permutation invariance of conflict analysis -/

theorem bool_eq_of_iff {a b : Bool} (h : a = true ↔ b = true) : a = b := by
  cases a <;> cases b <;> simp_all

theorem allSlots_perm {S S2 : List StateMap} (h : S.Perm S2) :
    allSlots S = allSlots S2 := by
  apply canonSlots_eq_of_mem_iff
  intro x
  simp only [List.mem_flatMap]
  constructor
  · rintro ⟨m, hm, hx⟩
    exact ⟨m, h.mem_iff.mp hm, hx⟩
  · rintro ⟨m, hm, hx⟩
    exact ⟨m, h.mem_iff.mpr hm, hx⟩

theorem isUnconfB_perm {S S2 : List StateMap} (h : S.Perm S2) (s : Slot) :
    isUnconfB S s = isUnconfB S2 s := by
  apply bool_eq_of_iff
  rw [isUnconfB_iff, isUnconfB_iff]
  constructor
  · rintro ⟨hne, v, hv⟩
    refine ⟨?_, v, fun m hm => hv m (h.mem_iff.mpr hm)⟩
    intro he
    exact hne (List.Perm.eq_nil (he ▸ h))
  · rintro ⟨hne, v, hv⟩
    refine ⟨?_, v, fun m hm => hv m (h.mem_iff.mp hm)⟩
    intro he
    exact hne (List.Perm.eq_nil (he ▸ h.symm))

theorem commonVal_unconf_perm {S S2 : List StateMap} (h : S.Perm S2) {s : Slot}
    (hu : isUnconfB S s = true) : commonVal S s = commonVal S2 s := by
  obtain ⟨hne, v, hv⟩ := (isUnconfB_iff S s).mp hu
  cases S with
  | nil => exact absurd rfl hne
  | cons m0 rest =>
    cases S2 with
    | nil => exact absurd (List.Perm.eq_nil h) (by simp)
    | cons n0 rest2 =>
      show smLookup m0 s = smLookup n0 s
      rw [hv m0 (by simp), hv n0 (h.mem_iff.mpr (by simp))]

theorem unconMap_perm {S S2 : List StateMap} (h : S.Perm S2) :
    unconMap S = unconMap S2 := by
  unfold unconMap
  rw [← allSlots_perm h]
  apply List.filterMap_congr
  intro s hs
  by_cases hu : isUnconfB S s = true
  · rw [hu, ← isUnconfB_perm h s, hu, if_pos rfl, if_pos rfl,
      commonVal_unconf_perm h hu]
  · have hu2 : isUnconfB S s = false := by
      cases hx : isUnconfB S s
      · rfl
      · exact absurd hx hu
    rw [hu2, ← isUnconfB_perm h s, hu2]
    simp

theorem mem_conflictedVals {S : List StateMap} {x : EventId} :
    x ∈ conflictedVals S ↔
      ∃ s, (∃ m ∈ S, s ∈ m.map Prod.fst) ∧ isConfB S s = true ∧
        ∃ m ∈ S, smLookup m s = some x := by
  unfold conflictedVals
  simp only [List.mem_flatMap]
  constructor
  · rintro ⟨s, hs, hx⟩
    by_cases hc : isConfB S s = true
    · rw [if_pos hc] at hx
      simp only [List.mem_filterMap] at hx
      obtain ⟨m, hm, hv⟩ := hx
      refine ⟨s, ?_, hc, m, hm, hv⟩
      unfold allSlots at hs
      rw [mem_canonSlots, List.mem_flatMap] at hs
      exact hs
    · rw [if_neg hc] at hx
      cases hx
  · rintro ⟨s, hpres, hc, m, hm, hv⟩
    refine ⟨s, ?_, ?_⟩
    · unfold allSlots
      rw [mem_canonSlots, List.mem_flatMap]
      exact hpres
    · rw [if_pos hc]
      simp only [List.mem_filterMap]
      exact ⟨m, hm, hv⟩

theorem isConfB_perm {S S2 : List StateMap} (h : S.Perm S2) (s : Slot) :
    isConfB S s = isConfB S2 s := by
  unfold isConfB
  rw [isUnconfB_perm h s]
  congr 1
  apply bool_eq_of_iff
  rw [List.any_eq_true, List.any_eq_true]
  constructor
  · rintro ⟨m, hm, hx⟩
    exact ⟨m, h.mem_iff.mp hm, hx⟩
  · rintro ⟨m, hm, hx⟩
    exact ⟨m, h.mem_iff.mpr hm, hx⟩

theorem mem_authDiff {A : List (List EventId)} {x : EventId} :
    x ∈ authDiff A ↔ (∃ c ∈ A, x ∈ c) ∧ ¬(∀ c ∈ A, x ∈ c) := by
  unfold authDiff
  simp only [List.mem_filter, List.mem_flatMap, id]
  constructor
  · rintro ⟨⟨c, hc, hxc⟩, hnall⟩
    refine ⟨⟨c, hc, hxc⟩, ?_⟩
    intro hall
    rw [Bool.not_eq_true', List.all_eq_false] at hnall
    obtain ⟨c2, hc2, hmiss⟩ := hnall
    simp at hmiss
    exact hmiss (hall c2 hc2)
  · rintro ⟨⟨c, hc, hxc⟩, hnall⟩
    refine ⟨⟨c, hc, hxc⟩, ?_⟩
    rw [Bool.not_eq_true', List.all_eq_false]
    push_neg at hnall
    obtain ⟨c2, hc2, hmiss⟩ := hnall
    exact ⟨c2, hc2, by simpa using hmiss⟩

theorem candidateIds_perm {S S2 : List StateMap} {A A2 : List (List EventId)}
    (hS : S.Perm S2) (hA : A.Perm A2) :
    candidateIds S A = candidateIds S2 A2 := by
  unfold candidateIds
  apply canonIds_eq_of_mem_iff
  intro x
  rw [List.mem_append, List.mem_append, mem_conflictedVals, mem_conflictedVals,
    mem_authDiff, mem_authDiff]
  constructor
  · rintro (⟨s, ⟨m, hm, hsm⟩, hc, m2, hm2, hv⟩ | ⟨⟨c, hc, hxc⟩, hnall⟩)
    · exact Or.inl ⟨s, ⟨m, hS.mem_iff.mp hm, hsm⟩, (isConfB_perm hS s) ▸ hc,
        m2, hS.mem_iff.mp hm2, hv⟩
    · exact Or.inr ⟨⟨c, hA.mem_iff.mp hc, hxc⟩,
        fun hall => hnall (fun c2 hc2 => hall c2 (hA.mem_iff.mp hc2))⟩
  · rintro (⟨s, ⟨m, hm, hsm⟩, hc, m2, hm2, hv⟩ | ⟨⟨c, hc, hxc⟩, hnall⟩)
    · exact Or.inl ⟨s, ⟨m, hS.mem_iff.mpr hm, hsm⟩, (isConfB_perm hS s).symm ▸ hc,
        m2, hS.mem_iff.mpr hm2, hv⟩
    · exact Or.inr ⟨⟨c, hA.mem_iff.mpr hc, hxc⟩,
        fun hall => hnall (fun c2 hc2 => hall c2 (hA.mem_iff.mpr hc2))⟩

/-! ### Overlay lookups -/

theorem map_fst_filterMap_sublist (P : Slot → Bool) (g : Slot → Option EventId) :
    ∀ l : List Slot,
      ((l.filterMap (fun s => if P s then (g s).map (fun v => (s, v)) else none)).map
        Prod.fst).Sublist l := by
  intro l
  induction l with
  | nil => simp
  | cons a t ih =>
    rw [List.filterMap_cons]
    by_cases hp : P a = true
    · rw [if_pos hp]
      cases hg : g a with
      | none => simpa using ih.cons a
      | some v => simpa using ih.cons₂ a
    · rw [if_neg hp]
      exact ih.cons a

theorem unconMap_keys_nodup (S : List StateMap) :
    ((unconMap S).map Prod.fst).Nodup := by
  unfold unconMap
  exact ((map_fst_filterMap_sublist (fun s => isUnconfB S s) (commonVal S)
    (allSlots S)).nodup (canonSlots_nodup _))

theorem foldl_insert_lookup_not_mem :
    ∀ (t : StateMap) (m : StateMap) (s : Slot), ¬ s ∈ t.map Prod.fst →
      smLookup (t.foldl (fun acc p => smInsert p.1 p.2 acc) m) s = smLookup m s := by
  intro t
  induction t with
  | nil => intro m s _; rfl
  | cons p rest ih =>
    intro m s hs
    rw [List.foldl_cons]
    have hne : s ≠ p.1 := by
      intro he
      exact hs (by simp [he])
    rw [ih _ s (fun hmem => hs (by simp [hmem]))]
    exact smLookup_insert_of_ne hne p.2 m

theorem overlay_lookup_mem :
    ∀ (uncon : StateMap) (m : StateMap) (s : Slot) (v : EventId),
      ((uncon.map Prod.fst).Nodup) → (s, v) ∈ uncon →
      smLookup (overlay uncon m) s = some v := by
  intro uncon
  induction uncon with
  | nil => intro m s v _ hmem; cases hmem
  | cons p rest ih =>
    intro m s v hnd hmem
    unfold overlay at *
    rw [List.foldl_cons]
    rcases List.mem_cons.mp hmem with hp | hrest
    · -- the binding is the head: later inserts have different keys
      have hkeys : ¬ s ∈ rest.map Prod.fst := by
        rw [← hp] at hnd
        exact (List.nodup_cons.mp (by simpa using hnd)).1
      rw [foldl_insert_lookup_not_mem rest _ s hkeys, ← hp]
      exact smLookup_insert_self s v m
    · exact ih _ s v (List.nodup_cons.mp (by simpa using hnd)).2 hrest

theorem mem_unconMap_of {S : List StateMap} {s : Slot} {v : EventId}
    (hne : S ≠ []) (hall : ∀ m ∈ S, smLookup m s = some v) :
    (s, v) ∈ unconMap S := by
  cases S with
  | nil => exact absurd rfl hne
  | cons m0 rest =>
    unfold unconMap
    rw [List.mem_filterMap]
    refine ⟨s, ?_, ?_⟩
    · unfold allSlots
      rw [mem_canonSlots, List.mem_flatMap]
      exact ⟨m0, by simp, smLookup_some_mem_slots (hall m0 (by simp))⟩
    · have hu : isUnconfB (m0 :: rest) s = true :=
        (isUnconfB_iff _ s).mpr ⟨by simp, v, hall⟩
      have hc : commonVal (m0 :: rest) s = some v := hall m0 (by simp)
      rw [if_pos hu, hc]
      rfl

theorem resolveCore_ok_shape {check : Event → StateMap → Bool} {store : List Event}
    {uncon : StateMap} {cands : List EventId} {out : StateMap}
    (h : resolveCore check store uncon cands = .ok out) :
    ∃ fin, out = overlay uncon fin := by
  unfold resolveCore at h
  split at h
  · exact Except.noConfusion h
  · split at h
    · exact Except.noConfusion h
    · split at h
      · exact Except.noConfusion h
      · split at h
        · exact Except.noConfusion h
        · split at h
          · exact Except.noConfusion h
          · split at h
            · exact Except.noConfusion h
            · rename_i fin hfin
              simp only [Except.ok.injEq] at h
              exact ⟨fin, h.symm⟩

/-- C1.  For a fixed event store, authorizer behavior and fetch contents,
`resolve` is invariant under permuting the snapshot list together with its
auth-chain list: the output state map (or error) is identical. -/
theorem resolve_deterministic_under_snapshot_permutation
    (check : Event → StateMap → Bool) (store : List Event)
    (S S2 : List StateMap) (A A2 : List (List EventId))
    (hS : S.length = A.length) (hS2 : S2.length = A2.length)
    (hperm : (S.zip A).Perm (S2.zip A2)) :
    resolve check store S A = resolve check store S2 A2 := by
  have hfst : (S.zip A).map Prod.fst = S := List.map_fst_zip S A (le_of_eq hS)
  have hfst2 : (S2.zip A2).map Prod.fst = S2 := List.map_fst_zip S2 A2 (le_of_eq hS2)
  have hsnd : (S.zip A).map Prod.snd = A := List.map_snd_zip S A (le_of_eq hS.symm)
  have hsnd2 : (S2.zip A2).map Prod.snd = A2 := List.map_snd_zip S2 A2 (le_of_eq hS2.symm)
  have hSp : S.Perm S2 := by
    rw [← hfst, ← hfst2]
    exact hperm.map Prod.fst
  have hAp : A.Perm A2 := by
    rw [← hsnd, ← hsnd2]
    exact hperm.map Prod.snd
  unfold resolve
  rw [if_pos hS, if_pos hS2, unconMap_perm hSp, candidateIds_perm hSp hAp]

/-- C2.  A slot on which all (one or more) input snapshots agree keeps its
agreed event id in any successful resolution, for every authorizer behavior
and store. -/
theorem resolve_preserves_unconflicted_slots
    (check : Event → StateMap → Bool) (store : List Event)
    (S : List StateMap) (A : List (List EventId)) (s : Slot) (v : EventId)
    (out : StateMap) (hne : S ≠ []) (hall : ∀ m ∈ S, smLookup m s = some v)
    (hok : resolve check store S A = .ok out) :
    smLookup out s = some v := by
  unfold resolve at hok
  by_cases hlen : S.length = A.length
  · rw [if_pos hlen] at hok
    obtain ⟨fin, hout⟩ := resolveCore_ok_shape hok
    rw [hout]
    exact overlay_lookup_mem _ fin s v (unconMap_keys_nodup S) (mem_unconMap_of hne hall)
  · rw [if_neg hlen] at hok
    exact Except.noConfusion hok

/-- C3.  The candidate set computed by conflict analysis holds exactly the
event ids bound by some snapshot to a conflicted slot (present somewhere with
disagreeing values, or present in some snapshots and absent in others),
together with the auth difference: ids lying in some auth chain but not in
all of them. -/
theorem candidate_set_characterization
    (S : List StateMap) (A : List (List EventId)) (x : EventId) :
    x ∈ candidateIds S A ↔
      (∃ s, SlotConflicted S s ∧ ∃ m ∈ S, smLookup m s = some x) ∨
        ((∃ c ∈ A, x ∈ c) ∧ ¬(∀ c ∈ A, x ∈ c)) :=
  mem_candidateIds S A x

/-- C8.  When the snapshot list and the auth-chain list differ in length,
`resolve` fails with `ArityMismatch` and returns no state map. -/
theorem resolve_arity_mismatch
    (check : Event → StateMap → Bool) (store : List Event)
    (S : List StateMap) (A : List (List EventId)) (h : S.length ≠ A.length) :
    resolve check store S A = .error .arityMismatch ∧
      ∀ m, resolve check store S A ≠ .ok m := by
  unfold resolve
  rw [if_neg h]
  exact ⟨rfl, fun m hm => Except.noConfusion hm⟩

/-- Concrete instance of the determinism claim: two snapshots swapped. -/
theorem resolve_deterministic_under_snapshot_permutation_witness :
    (([([((0, 0), 5)] : StateMap), [((0, 0), 6)]].zip ([[], []] : List (List EventId))).Perm
        ([[((0, 0), 6)], [((0, 0), 5)]].zip [[], []])) ∧
      resolve (fun _ _ => true) [] [[((0, 0), 5)], [((0, 0), 6)]] [[], []] =
        resolve (fun _ _ => true) [] [[((0, 0), 6)], [((0, 0), 5)]] [[], []] :=
  ⟨by decide,
    resolve_deterministic_under_snapshot_permutation (fun _ _ => true) [] _ _ _ _
      (by decide) (by decide) (by decide)⟩

/-- Concrete instance of the unconflicted-slot claim: two agreeing snapshots. -/
theorem resolve_preserves_unconflicted_slots_witness :
    ([([((0, 0), 7)] : StateMap), [((0, 0), 7)]] ≠ []) ∧
      (∀ m ∈ [([((0, 0), 7)] : StateMap), [((0, 0), 7)]], smLookup m (0, 0) = some 7) ∧
      resolve (fun _ _ => true) [] [[((0, 0), 7)], [((0, 0), 7)]] [[], []] =
        .ok [((0, 0), 7)] ∧
      smLookup [((0, 0), 7)] (0, 0) = some 7 :=
  ⟨by decide, by decide, rfl,
    resolve_preserves_unconflicted_slots (fun _ _ => true) []
      [[((0, 0), 7)], [((0, 0), 7)]] [[], []] (0, 0) 7 [((0, 0), 7)]
      (by decide) (by decide) rfl⟩

/-- Concrete instance of the arity-mismatch claim. -/
theorem resolve_arity_mismatch_witness :
    ([([((0, 0), 1)] : StateMap)].length ≠ ([] : List (List EventId)).length) ∧
      resolve (fun _ _ => true) [] [[((0, 0), 1)]] [] = .error .arityMismatch :=
  ⟨by decide,
    (resolve_arity_mismatch (fun _ _ => true) [] [[((0, 0), 1)]] [] (by decide)).1⟩

/-! ### The auth-chain contract (spec section 4.1) -/

theorem Reach_starts_iff {store : List Event} {T T2 : List EventId} {x : EventId}
    (h : ∀ a, a ∈ T ↔ a ∈ T2) : Reach store T x ↔ Reach store T2 x :=
  ⟨fun hr => hr.of_subset (fun a ha => (h a).mp ha),
    fun hr => hr.of_subset (fun a ha => (h a).mpr ha)⟩

theorem dfsE_ok_char {store : List Event} {stack out : List EventId}
    (h : dfsE store stack = .ok out) :
    (∀ x, x ∈ out ↔ Reach store stack x) ∧ ∀ x ∈ out, (fetchE store x).isSome := by
  have haux : dfsEAux store (dfsBound store stack []) stack [] = some (.ok out) := by
    rw [dfsEAux_eq_dfsE, h]
  have hsound := dfsEAux_sound store _ _ _ _ haux
  have hsub := dfsEAux_subset store _ _ _ _ haux
  have hclosed := dfsEAux_closed store _ _ _ _ (by intro v hv; simp at hv) haux
  constructor
  · intro x
    constructor
    · intro hx
      rcases hsound x hx with h1 | h1
      · simp at h1
      · exact h1
    · intro hr
      induction hr with
      | base hm => exact hsub.1 _ hm
      | step hr2 hf hm ihj =>
        rename_i j e id
        obtain ⟨e2, hf2, hall⟩ := hclosed j ihj
        rw [hf] at hf2
        have he : e2 = e := Option.some.inj hf2.symm
        exact hall id (he ▸ hm)
  · intro x hx
    obtain ⟨e, he, -⟩ := hclosed x hx
    simp [he]

theorem dfsE_error_char {store : List Event} {stack : List EventId} {err : ResError}
    (h : dfsE store stack = .error err) :
    ∃ x, err = .fetchMissing x ∧ Reach store stack x ∧ fetchE store x = none := by
  have haux : dfsEAux store (dfsBound store stack []) stack [] = some (.error err) := by
    rw [dfsEAux_eq_dfsE, h]
  exact dfsEAux_error store _ _ _ _ haux

theorem chainOfId_error_kind {store : List Event} {id : EventId} {er : ResError}
    (h : chainOfId store id = .error er) : ∃ x, er = .fetchMissing x := by
  unfold chainOfId at h
  cases hf : fetchE store id with
  | none =>
    rw [hf] at h
    simp only [Except.error.injEq] at h
    exact ⟨id, h.symm⟩
  | some e =>
    rw [hf] at h
    unfold auth_events_dfs at h
    obtain ⟨x, hx, -, -⟩ := dfsE_error_char h
    exact ⟨x, hx⟩

theorem computeChains_ok_iff (store : List Event) (l : List EventId) :
    computeChains store l = .ok () ↔ ∀ id ∈ l, ∃ ch, chainOfId store id = .ok ch := by
  induction l with
  | nil => simp [computeChains]
  | cons id rest ih =>
    rw [computeChains]
    cases hc : chainOfId store id with
    | error e =>
      simp only []
      constructor
      · intro h
        exact Except.noConfusion h
      · intro h
        obtain ⟨ch, hch⟩ := h id (by simp)
        rw [hc] at hch
        exact Except.noConfusion hch
    | ok ch =>
      constructor
      · intro h
        intro id2 hid2
        rcases List.mem_cons.mp hid2 with rfl | hid3
        · exact ⟨_, hc⟩
        · exact (ih.mp h) id2 hid3
      · intro h
        exact ih.mpr (fun id2 hid2 => h id2 (List.mem_cons_of_mem _ hid2))


theorem computeChains_error_kind {store : List Event} {l : List EventId} {e : ResError}
    (h : computeChains store l = .error e) : ∃ x, e = .fetchMissing x := by
  induction l with
  | nil => simp [computeChains] at h
  | cons id rest ih =>
    rw [computeChains] at h
    cases hc : chainOfId store id with
    | error er =>
      rw [hc] at h
      simp only [Except.error.injEq] at h
      exact h ▸ chainOfId_error_kind hc
    | ok ch =>
      rw [hc] at h
      exact ih h

theorem resolveCore_error_of_chains {check : Event → StateMap → Bool}
    {store : List Event} {uncon : StateMap} {cands : List EventId} {e : ResError}
    (hval : validateIds store cands = .ok ())
    (hcc : computeChains store (cands.filter (fun id => isAuthorityAt store id)) = .error e) :
    resolveCore check store uncon cands = .error e := by
  unfold resolveCore
  rw [hval, hcc]

/-- C4.  The contract of `auth_events_dfs`: on success it returns exactly the
set of event ids transitively reachable from the PDU's authorizing-event
references through resolvable events; it fails precisely when some reachable
reference cannot be resolved, in which case the error is `FetchMissing` of
such an id; and whenever the chain computation of a required authority
candidate fails, `resolve` as a whole fails with `FetchMissing` and returns
no state map at all. -/
theorem auth_chain_dfs_contract (store : List Event) :
    (∀ pdu out, auth_events_dfs store pdu = .ok out →
        (∀ x, x ∈ out ↔ Reach store pdu.auth_events x) ∧
          ∀ x ∈ out, (fetchE store x).isSome) ∧
      (∀ pdu err, auth_events_dfs store pdu = .error err →
        ∃ x, err = .fetchMissing x ∧ Reach store pdu.auth_events x ∧
          fetchE store x = none) ∧
      (∀ pdu, (∃ x, Reach store pdu.auth_events x ∧ fetchE store x = none) →
        ∃ x, auth_events_dfs store pdu = .error (.fetchMissing x)) ∧
      (∀ check S A, S.length = A.length →
        validateIds store (candidateIds S A) = .ok () →
        (∃ id ∈ (candidateIds S A).filter (fun id => isAuthorityAt store id),
          ∃ er, chainOfId store id = .error er) →
        (∃ x, resolve check store S A = .error (.fetchMissing x)) ∧
          ∀ m, resolve check store S A ≠ .ok m) := by
  have hrev : ∀ (pdu : Event) (x : EventId),
      Reach store pdu.auth_events.reverse x ↔ Reach store pdu.auth_events x :=
    fun pdu x => Reach_starts_iff (fun a => List.mem_reverse)
  refine ⟨?_, ?_, ?_, ?_⟩
  · intro pdu out h
    obtain ⟨hiff, hsome⟩ := dfsE_ok_char h
    exact ⟨fun x => (hiff x).trans (hrev pdu x), hsome⟩
  · intro pdu err h
    obtain ⟨x, he, hr, hf⟩ := dfsE_error_char h
    exact ⟨x, he, (hrev pdu x).mp hr, hf⟩
  · intro pdu hex
    obtain ⟨x, hr, hf⟩ := hex
    cases hres : auth_events_dfs store pdu with
    | error err =>
      obtain ⟨x2, he, -, -⟩ := dfsE_error_char hres
      refine ⟨x2, ?_⟩
      rw [he]
    | ok out =>
      exfalso
      obtain ⟨hiff, -⟩ := dfsE_ok_char hres
      have hx : x ∈ out := (hiff x).mpr ((hrev pdu x).mpr hr)
      obtain ⟨-, hsome⟩ := dfsE_ok_char hres
      have := hsome x hx
      rw [hf] at this
      simp at this
  · intro check S A hlen hval hbad
    obtain ⟨id, hid, er, her⟩ := hbad
    have hnotok : ¬ computeChains store
        ((candidateIds S A).filter (fun id => isAuthorityAt store id)) = .ok () := by
      intro hok
      obtain ⟨ch, hch⟩ := (computeChains_ok_iff store _).mp hok id hid
      rw [her] at hch
      exact Except.noConfusion hch
    cases hcc : computeChains store
        ((candidateIds S A).filter (fun id => isAuthorityAt store id)) with
    | ok u =>
      exact absurd (by cases u; exact hcc) hnotok
    | error e =>
      obtain ⟨x, hx⟩ := computeChains_error_kind hcc
      have hres : resolve check store S A = .error e := by
        unfold resolve
        rw [if_pos hlen]
        exact resolveCore_error_of_chains hval hcc
      subst hx
      exact ⟨⟨x, hres⟩, fun m hm => by rw [hres] at hm; exact Except.noConfusion hm⟩

/-! ### Remaining claim theorems -/

/-- C5.  The DFS of `auth_events_dfs` terminates on every finite input graph,
cyclic auth references included — the fuel bound is sufficient — and never
re-expands a visited id: the collected list holds each event at most once. -/
theorem auth_chain_dfs_terminates_no_reexpansion
    (store : List Event) (stack visited : List EventId) (hn : visited.Nodup) :
    (dfsEAux store (dfsBound store stack visited) stack visited).isSome = true ∧
      ∀ fuel out, dfsEAux store fuel stack visited = some (.ok out) → out.Nodup :=
  ⟨dfsEAux_isSome store _ stack visited le_rfl,
    fun fuel out h => dfsEAux_nodup store fuel stack visited out hn h⟩

/-- A concrete event for witnesses: id, timestamp, type, state key and auth
references; remaining fields fixed. -/
def mkEv (id ts k : Nat) (sk : Option Nat) (auths : List EventId) : Event :=
  { event_id := id, room_id := 0, sender := 0, origin_server_ts := ts, kind := k,
    state_key := sk, prev_events := [], auth_events := auths, redacts := none,
    rejected := false, membership := none, power_users := [] }

/-- Concrete instance of the DFS termination claim, on a two-event auth cycle. -/
theorem auth_chain_dfs_terminates_witness :
    ([] : List EventId).Nodup ∧
      (dfsEAux [mkEv 1 0 0 (some 0) [2], mkEv 2 0 0 (some 0) [1]]
          (dfsBound [mkEv 1 0 0 (some 0) [2], mkEv 2 0 0 (some 0) [1]] [1] [])
          [1] []).isSome = true ∧
      dfsEAux [mkEv 1 0 0 (some 0) [2], mkEv 2 0 0 (some 0) [1]]
          (dfsBound [mkEv 1 0 0 (some 0) [2], mkEv 2 0 0 (some 0) [1]] [1] [])
          [1] [] = some (.ok [2, 1]) :=
  ⟨by decide,
    (auth_chain_dfs_terminates_no_reexpansion
      [mkEv 1 0 0 (some 0) [2], mkEv 2 0 0 (some 0) [1]] [1] [] (by decide)).1,
    rfl⟩

/-- Concrete instance of the auth-chain contract: a reference to a PDU absent
from the store makes the chain computation fail with `FetchMissing`. -/
theorem auth_chain_dfs_contract_witness :
    (Reach [] (mkEv 1 0 0 (some 0) [5]).auth_events 5 ∧ fetchE [] 5 = none) ∧
      ∃ x, auth_events_dfs [] (mkEv 1 0 0 (some 0) [5]) = .error (.fetchMissing x) :=
  ⟨⟨Reach.base (by decide), rfl⟩,
    (auth_chain_dfs_contract []).2.2.1 (mkEv 1 0 0 (some 0) [5])
      ⟨5, Reach.base (by decide), rfl⟩⟩

/-- C6.  The authority order is total (a permutation of the authority subset),
respects causal depth (an event in another's auth chain is placed before it),
breaks ties by the key (power rank descending via negation, then origin
timestamp, then event id — with the default rank built into the key), the key
distinguishes every two distinct events, and on causally unrelated inputs the
emitted order is exactly the ascending key order. -/
theorem authority_order_total_causal_keyed (store : List Event)
    (chainF : EventId → List EventId) :
    (∀ l out, kahnOrder chainF (authKey store) l = .ok out → out.Perm l) ∧
      (∀ l out, kahnOrder chainF (authKey store) l = .ok out →
        ∀ a b, a ∈ l → b ∈ l → a ≠ b → a ∈ chainF b → [a, b].Sublist out) ∧
      (∀ a b, authKey store a = authKey store b → a = b) ∧
      (∀ (a b : Nat) (ea eb : Event), fetchE store a = some ea → fetchE store b = some eb →
        (akLt (authKey store a) (authKey store b) = true ↔
          (powerRank store eb < powerRank store ea ∨
            (powerRank store ea = powerRank store eb ∧
              (ea.origin_server_ts < eb.origin_server_ts ∨
                (ea.origin_server_ts = eb.origin_server_ts ∧ a < b)))))) ∧
      (∀ l, (∀ b ∈ l, ∀ a ∈ l, ¬ a ∈ chainF b) →
        ∃ out, kahnOrder chainF (authKey store) l = .ok out ∧
          out.Pairwise (fun p q => akLt (authKey store q) (authKey store p) = false)) := by
  refine ⟨?_, ?_, ?_, ?_, ?_⟩
  · exact fun l out h => kahnAux_perm chainF (authKey store) l.length l out h
  · exact fun l out h => kahnAux_causal chainF (authKey store) l.length l out h
  · exact fun a b h => authKey_inj h
  · intro a b ea eb hfa hfb
    unfold authKey
    rw [hfa, hfb, akLt_iff]
    dsimp only
    omega
  · exact fun l hedge => kahnAux_noedge chainF (authKey store) l.length l le_rfl hedge

/-- Concrete instance of the authority-order claim: two causally unrelated
events come out in ascending key order, a permutation of the input. -/
theorem authority_order_witness :
    kahnOrder (fun _ => ([] : List EventId)) (authKey []) [2, 1] = .ok [1, 2] ∧
      ([1, 2] : List EventId).Perm [2, 1] :=
  ⟨rfl, (authority_order_total_causal_keyed [] (fun _ => [])).1 [2, 1] [1, 2] rfl⟩

/-- C7.  A candidate the authorizer rejects leaves the working state map
exactly as it was; the merge continues with the remaining candidates and the
rejection surfaces no error. -/
theorem merge_reject_leaves_state_unchanged
    (check : Event → StateMap → Bool) (store : List Event)
    (id : EventId) (rest : List EventId) (st : StateMap) (e : Event) (k : Nat)
    (hf : fetchE store id = some e) (hk : e.state_key = some k)
    (hrej : check e st = false) :
    mergePass check store (id :: rest) st = mergePass check store rest st := by
  simp [mergePass, hf, hk, hrej]

/-- Concrete instance of the rejection claim: an always-rejecting authorizer
leaves the working state untouched. -/
theorem merge_reject_witness :
    fetchE [mkEv 1 0 0 (some 0) []] 1 = some (mkEv 1 0 0 (some 0) []) ∧
      (mkEv 1 0 0 (some 0) []).state_key = some 0 ∧
      (fun (_ : Event) (_ : StateMap) => false) (mkEv 1 0 0 (some 0) []) [] = false ∧
      mergePass (fun _ _ => false) [mkEv 1 0 0 (some 0) []] [1] [] =
        mergePass (fun _ _ => false) [mkEv 1 0 0 (some 0) []] [] [] :=
  ⟨rfl, rfl, rfl,
    merge_reject_leaves_state_unchanged (fun _ _ => false) [mkEv 1 0 0 (some 0) []]
      1 [] [] (mkEv 1 0 0 (some 0) []) 0 rfl rfl rfl⟩

/-- C9.  An event whose auth chain holds no mainline member ("before the
mainline") has a strictly smaller ordinary sort key than every event with a
mainline index; among two such chain-less events the key reduces to origin
timestamp then event id; and the ordinary pass emits a permutation of its
input sorted by that key. -/
theorem mainline_fallback_sorts_first :
    (∀ store ml (a b : Nat) i, mainlinePos store ml a = none → mainlinePos store ml b = some i →
        akLt (ordKey store ml a) (ordKey store ml b) = true ∧
          akLt (ordKey store ml b) (ordKey store ml a) = false) ∧
      (∀ store ml (a b : Nat), mainlinePos store ml a = none → mainlinePos store ml b = none →
        (akLt (ordKey store ml a) (ordKey store ml b) = true ↔
          (tsOf store a < tsOf store b ∨ (tsOf store a = tsOf store b ∧ a < b)))) ∧
      (∀ store ml l, (sortOrdinary store ml l).Perm l ∧
        (sortOrdinary store ml l).Pairwise
          (fun p q => akLt (ordKey store ml q) (ordKey store ml p) = false)) := by
  refine ⟨?_, ?_, ?_⟩
  · intro store ml a b i ha hb
    unfold ordKey
    rw [ha, hb]
    constructor
    · rw [akLt_iff]
      dsimp only
      simp only [posN]
      omega
    · rw [← Bool.not_eq_true, akLt_iff]
      dsimp only
      simp only [posN]
      omega
  · intro store ml a b ha hb
    unfold ordKey
    rw [ha, hb, akLt_iff]
    dsimp only
    simp [posN]
  · intro store ml l
    constructor
    · exact List.perm_insertionSort _ l
    · letI rel : EventId → EventId → Prop :=
        fun p q => akLt (ordKey store ml q) (ordKey store ml p) = false
      letI : IsTotal EventId rel := by
        constructor
        intro a b
        show akLt (ordKey store ml b) (ordKey store ml a) = false ∨
          akLt (ordKey store ml a) (ordKey store ml b) = false
        cases h1 : akLt (ordKey store ml b) (ordKey store ml a) with
        | false => exact Or.inl rfl
        | true =>
          cases h2 : akLt (ordKey store ml a) (ordKey store ml b) with
          | false => exact Or.inr rfl
          | true =>
            exfalso
            have := akLt_trans h1 h2
            rw [akLt_irrefl] at this
            exact Bool.false_ne_true this
      letI : IsTrans EventId rel := by
        constructor
        intro a b c h1 h2
        exact akLt_nlt_trans h2 h1
      exact List.sorted_insertionSort rel l

/-- Concrete instance of the mainline-fallback claim: an event outside the
power lineage sorts strictly before a mainline-positioned one. -/
theorem mainline_fallback_witness :
    mainlinePos [mkEv 9 0 1 (some 0) [], mkEv 2 0 0 (some 0) [9]] [9] 1 = none ∧
      mainlinePos [mkEv 9 0 1 (some 0) [], mkEv 2 0 0 (some 0) [9]] [9] 2 = some 0 ∧
      akLt (ordKey [mkEv 9 0 1 (some 0) [], mkEv 2 0 0 (some 0) [9]] [9] 1)
          (ordKey [mkEv 9 0 1 (some 0) [], mkEv 2 0 0 (some 0) [9]] [9] 2) = true :=
  ⟨rfl, rfl,
    ((mainline_fallback_sorts_first).1
      [mkEv 9 0 1 (some 0) [], mkEv 2 0 0 (some 0) [9]] [9] 1 2 0 rfl rfl).1⟩

end StateRes
